import Mathlib

/-!
Verification development for the FirstIn polling daemon.

Shallow embedding of the core polling engine:
* the Go error model (`internal/model/errors.go` plus Go error wrapping),
* the retry decorator (`internal/retry/retry.go`),
* the per-company poll pipeline (`CompanyPoller.Poll`, embedded source in
  `internal/poller/poller_test.go`, second embedded revision, lines 313-401),
* the Microsoft adapter's pagination and freshness gate
  (`internal/adapter/microsoft.go`),
* the per-ATS-group scheduler (`internal/scheduler`, grouped revision).

Timestamps and durations are modelled as integers (nanoseconds, matching Go's
`time.Time`/`time.Duration` resolution).  The jitter sample of the retry
backoff is modelled as a rational number in `[0,1]` standing for the value of
`rand.Float64()`; float arithmetic is modelled over `ℚ` with the final
truncation of `time.Duration(float64)` made explicit as an integer floor.
-/

namespace FirstIn

/-! ### Error model

`model.HTTPError` carries `StatusCode`, `RetryAfter` and a wrapped cause
(`Err`, exposed through `Unwrap`).  Every other Go error is either one of the
context sentinels, a plain error value, or a `fmt.Errorf("...: %w", cause)`
wrapper.  `errors.Is`/`errors.As` walk the `Unwrap` chain. -/

inductive GoErr where
  /-- A `model.HTTPError` with nil `Err`; `retryAfterNs` is zero when the
  `Retry-After` header was absent. -/
  | http (statusCode : Int) (retryAfterNs : Int)
  /-- A `model.HTTPError` with a non-nil wrapped cause (`Err`, exposed
  through `Unwrap`). -/
  | httpWrap (statusCode : Int) (retryAfterNs : Int) (cause : GoErr)
  /-- The `context.Canceled` sentinel. -/
  | canceled
  /-- The `context.DeadlineExceeded` sentinel. -/
  | deadlineExceeded
  /-- a plain error value (`errors.New`, DNS failure, JSON decode error, ...). -/
  | plain (msg : String)
  /-- An error built by `fmt.Errorf` wrapping `cause` with context text. -/
  | wrapf (msg : String) (cause : GoErr)
deriving Repr, DecidableEq

/-- Models `errors.Is(err, context.Canceled) || errors.Is(err, context.DeadlineExceeded)`:
walks the `Unwrap` chain looking for either context sentinel. -/
def GoErr.isCanceledOrDeadline : GoErr → Bool
  | .canceled => true
  | .deadlineExceeded => true
  | .http _ _ => false
  | .httpWrap _ _ c => c.isCanceledOrDeadline
  | .wrapf _ c => c.isCanceledOrDeadline
  | .plain _ => false

/-- Models `errors.As(err, &httpErr)`: the first `*model.HTTPError` on the `Unwrap`
chain, returned as `(statusCode, retryAfterNs)`. -/
def GoErr.asHTTP : GoErr → Option (Int × Int)
  | .http s r => some (s, r)
  | .httpWrap s r _ => some (s, r)
  | .wrapf _ c => c.asHTTP
  | .canceled => none
  | .deadlineExceeded => none
  | .plain _ => none

/-- Models `retry.isRetryable` (`internal/retry/retry.go`): context errors are never
retried; an `HTTPError` is retried exactly for status 429 or `>= 500`; every
other (non-HTTP) error is retried. -/
def isRetryable : Option GoErr → Bool
  | none => false
  | some e =>
    if e.isCanceledOrDeadline then false
    else
      match e.asHTTP with
      | some (s, _) =>
        if s == 429 then true
        else if 500 ≤ s then true
        else false
      | none => true

/-! ### Job record (`internal/model/job.go`)

Only the fields the poll pipeline reads are carried; `postedAt` is the
nullable publication timestamp in nanoseconds. -/

structure Job where
  id : String
  company : String := ""
  title : String := ""
  location : String := ""
  url : String := ""
  postedAt : Option Int := none
  source : String := ""
deriving Repr, DecidableEq

/-! ### Seen-set store

The store contract (`model.JobStore`) with the honest set semantics of the
in-memory and SQLite stores: `HasSeen` is membership, `MarkSeen` is an
idempotent insert, `IsEmpty` probes for the empty set.  The state is the list
of identifiers in first-commit order. -/

abbrev Store := List String

def hasSeen (s : Store) (jobID : String) : Bool := s.contains jobID

def markSeen (s : Store) (jobID : String) : Store :=
  if s.contains jobID then s else s ++ [jobID]

/-- Runs `MarkSeen` over every job of a batch, in batch order (the commit
loops of `CompanyPoller.Poll`). -/
def commitAll (s : Store) (batch : List Job) : Store :=
  batch.foldl (fun acc j => markSeen acc j.id) s

/-! ### Company poller (`CompanyPoller.Poll`)

Embedded from the second revision of `poller.go` carried in
`internal/poller/poller_test.go` (lines 313-401): probe `IsEmpty`, fetch,
filter, freshness-gate, dedup against the store, then either silently seed
(first run) or notify-then-commit.

Modelled from the spec: the revision of `poller.go` currently wired by
`cmd/firstin/root.go` (which passes `cfg.Filters.MaxAge` to
`NewCompanyPoller`) is not among the source files; the embedded revision
hard-codes the freshness window to one hour.  Following the spec's
"freshness window `max_age`" and the caller, the window is the parameter
`maxAge` below; instantiating `maxAge := nsPerHour` gives exactly the
embedded source.  The fetcher is modelled by its one result for the cycle,
the notifier by the error (if any) it returns for a batch. -/

def nsPerHour : Int := 3600000000000

/-- The freshness gate applied to one record: a record is kept unless the
cycle is not seeding, `posted_at` is present, and `posted_at` is strictly
before `now - maxAge` (`job.PostedAt.Before(now.Add(-maxAge))`). -/
def freshOK (firstRun : Bool) (maxAge now : Int) (j : Job) : Bool :=
  !(!firstRun &&
    (match j.postedAt with
     | some t => decide (t < now - maxAge)
     | none => false))

/-- The filter-plus-freshness loop of `Poll`: keep records accepted by the
filter that pass the freshness gate, in fetched order. -/
def matchedJobs (firstRun : Bool) (maxAge now : Int) (filt : Job → Bool)
    (jobs : List Job) : List Job :=
  jobs.filter (fun j => filt j && freshOK firstRun maxAge now j)

/-- The dedup loop of `Poll`: keep the matched records whose identifier the
store has not seen, in order.  `HasSeen` is evaluated against the pre-cycle
store for every survivor. -/
def newJobsOf (firstRun : Bool) (maxAge now : Int) (filt : Job → Bool)
    (jobs : List Job) (store : Store) : List Job :=
  (matchedJobs firstRun maxAge now filt jobs).filter
    (fun j => !(hasSeen store j.id))

/-- Errors returned by `Poll`, each a `fmt.Errorf("polling <name>: ...: %w", e)`
wrapper over its cause. -/
inductive PollErr where
  /-- fetch failed (`polling <name>: %w`). -/
  | fetchFailed (e : GoErr)
  /-- the notifier returned an error (`polling <name>: notifying: %w`). -/
  | notifyFailed (e : GoErr)
deriving Repr, DecidableEq

/-- Observable outcome of one `Poll` cycle: the store afterwards, every batch
the notifier was invoked with (in order of invocation), and the returned
error, if any. -/
structure PollOutcome where
  store : Store
  notifyCalls : List (List Job)
  errorOut : Option PollErr
deriving Repr, DecidableEq

/-- One cycle of `CompanyPoller.Poll`.  `fetch` is the fetcher's result,
`notify batch` the notifier's returned error (`none` = success). -/
def poll (maxAge now : Int) (filt : Job → Bool)
    (fetch : Except GoErr (List Job)) (notify : List Job → Option GoErr)
    (store : Store) : PollOutcome :=
  let firstRun := store.isEmpty
  match fetch with
  | .error e => ⟨store, [], some (.fetchFailed e)⟩
  | .ok jobs =>
    let newJobs := newJobsOf firstRun maxAge now filt jobs store
    if firstRun then
      ⟨commitAll store newJobs, [], none⟩
    else if newJobs.isEmpty then
      ⟨store, [], none⟩
    else
      match notify newJobs with
      | some e => ⟨store, [newJobs], some (.notifyFailed e)⟩
      | none => ⟨commitAll store newJobs, [newJobs], none⟩

/-! ### Retry decorator (`RetryFetcher.FetchJobs`)

The wrapped fetcher is modelled as the sequence of results of its successive
invocations (`inner k` = result of call number `k`, zero-based).  The context
is never cancelled during a backoff sleep (sleeping is not observable here);
cancellation surfacing from the fetch itself is an `: GoErr` result.
`fetchJobsRetry` returns the final result together with the total number of
calls made to the wrapped fetcher. -/

def retryLoop (inner : Nat → Except GoErr (List Job)) :
    Nat → GoErr → Nat → Except GoErr (List Job) × Nat
  | callIdx, lastErr, 0 => (.error lastErr, callIdx)
  | callIdx, _, remaining + 1 =>
    match inner callIdx with
    | .ok jobs => (.ok jobs, callIdx + 1)
    | .error e =>
      if isRetryable (some e) then retryLoop inner (callIdx + 1) e remaining
      else (.error e, callIdx + 1)

def fetchJobsRetry (maxRetries : Nat) (inner : Nat → Except GoErr (List Job)) :
    Except GoErr (List Job) × Nat :=
  match inner 0 with
  | .ok jobs => (.ok jobs, 1)
  | .error e =>
    if isRetryable (some e) then retryLoop inner 1 e maxRetries
    else (.error e, 1)

/-! ### Backoff (`RetryFetcher.backoffDelay`)

`u` is the value drawn by `rand.Float64()`.  Delays are nanoseconds; the
computation `time.Duration(float64(delay) + (u*2-1)*jitter)` is modelled over
`ℚ` with the truncation to `int64` as `Int.floor` (the value is positive for
positive `baseDelay`). -/

/-- The jitter multiplier: `1 + (2u - 1) * 0.3`. -/
def jitterFactor (u : ℚ) : ℚ := 1 + (2 * u - 1) * (3 / 10)

/-- Models `backoffDelay`: a server-requested positive `RetryAfter` on the error's
`HTTPError` takes precedence; otherwise `baseDelay * 2^(attempt-1)` with
jitter applied. -/
def backoffDelay (baseDelay : Int) (attempt : Nat) (u : ℚ) (err : GoErr) : Int :=
  let exp : Int := baseDelay * 2 ^ (attempt - 1)
  let computed : Int := Int.floor ((exp : ℚ) * jitterFactor u)
  match err.asHTTP with
  | some (_, retryAfter) => if 0 < retryAfter then retryAfter else computed
  | none => computed

/-! ### Microsoft adapter (`internal/adapter/microsoft.go`)

The upstream search API is modelled by the pages it serves — `pages.getD i []`
is the page at offset `10 * i` — together with the total `count` it reports
(`data.count`, taken constant across the paginated calls, as the early-exit
logic assumes).  `now` stands for `time.Now().UTC()` in nanoseconds; the two
`time.Now()` calls of `FetchJobs` and `fetchAllPositions` are modelled as one
instant.  The Go `for` loop is embedded with explicit fuel; the wrapper
supplies `count / 10 + 1` units, enough for the `start >= count` break to fire
first, so the fuel-0 branch is never reached. -/

def nsPerSec : Int := 1000000000

/-- The adapter cutoff `microsoftCutoff = 24 * time.Hour`, in nanoseconds. -/
def msCutoffNs : Int := 86400 * nsPerSec

/-- The search page size `microsoftPageSize`. -/
def msPageSize : Nat := 10

/-- The audit cap `microsoftAuditMaxPages * microsoftPageSize`. -/
def msAuditCap : Nat := 200

/-- One entry of `data.positions` in the Microsoft search response. -/
structure MSPosition where
  id : Int
  name : String
  locations : List String := []
  postedTs : Int
  positionURL : String := ""
deriving Repr, DecidableEq

/-- The instant `time.Unix(p.PostedTs, 0).UTC()` in nanoseconds. -/
def postedNs (p : MSPosition) : Int := p.postedTs * nsPerSec

/-- The page served at byte offset `start` (`start` is a multiple of 10). -/
def pageAt (pages : List (List MSPosition)) (start : Nat) : List MSPosition :=
  pages.getD (start / msPageSize) []

/-- The early-exit probe of `fetchAllPositions`: does any position on the
page satisfy `p.PostedTs > 0 && time.Unix(p.PostedTs, 0).UTC().After(cutoff)`? -/
def hasAnyFresh (cutoff : Int) (page : List MSPosition) : Bool :=
  page.any (fun p => decide (0 < p.postedTs) && decide (cutoff < postedNs p))

/-- The pagination loop body of `MicrosoftAdapter.fetchAllPositions`:
append the page, then break (in this order) when a non-audit page has no
fresh position, when `start + pageSize >= count`, or when audit mode reaches
its page cap; otherwise continue at `start + pageSize`. -/
def fetchAllAux (audit : Bool) (cutoff : Int) (pages : List (List MSPosition))
    (count : Nat) : Nat → Nat → List MSPosition
  | 0, _ => []
  | fuel + 1, start =>
    let ps := pageAt pages start
    if !audit && !hasAnyFresh cutoff ps then ps
    else if count ≤ start + msPageSize then ps
    else if audit && decide (msAuditCap ≤ start + msPageSize) then ps
    else ps ++ fetchAllAux audit cutoff pages count fuel (start + msPageSize)

/-- Models `MicrosoftAdapter.fetchAllPositions`. -/
def fetchAllPositions (audit : Bool) (now : Int) (pages : List (List MSPosition))
    (count : Nat) : List MSPosition :=
  fetchAllAux audit (now - msCutoffNs) pages count (count / msPageSize + 1) 0

/-- Models `MicrosoftAdapter.jobFromPosition`. -/
def jobFromPosition (company : String) (p : MSPosition) : Job :=
  { id := toString p.id
    company := company
    title := p.name
    location := p.locations.headD ""
    url := "https://apply.careers.microsoft.com" ++ p.positionURL
    postedAt := some (postedNs p)
    source := "microsoft" }

/-- Models `MicrosoftAdapter.FetchJobs`: paginate, then keep positions with a
non-zero `postedTs` that (outside audit mode) are not strictly before the
24-hour cutoff, normalized into `Job`s. -/
def msFetchJobs (audit : Bool) (now : Int) (company : String)
    (pages : List (List MSPosition)) (count : Nat) : List Job :=
  (fetchAllPositions audit now pages count).filterMap (fun p =>
    if p.postedTs == 0 then none
    else if !audit && decide (postedNs p < now - msCutoffNs) then none
    else some (jobFromPosition company p))

/-- The concatenation of the pages at offsets `start, start+10, ..., start+10*k`
(that is, `k + 1` consecutive pages). -/
def joinedPages (pages : List (List MSPosition)) : Nat → Nat → List MSPosition
  | start, 0 => pageAt pages start
  | start, k + 1 => pageAt pages start ++ joinedPages pages (start + msPageSize) k

/-! ### Scheduler (`internal/scheduler`, grouped revision in the source pack)

`Scheduler.groupByATS` builds a Go map from ATS tag to the pollers carrying
that tag, appending in caller order; the map is modelled as a function from
tag to group.  One pass of `runATSLoop` over a group is modelled by its event
trace: each company is polled in order (an error is logged, not propagated),
a `minDelay` sleep separates consecutive companies of the group with none
after the last, and the pass ends with the `polling_interval` sleep.
Cancellation is not modelled (the trace is that of an uncancelled pass). -/

structure PollerCfg where
  name : String
  ats : String
deriving Repr, DecidableEq

/-- Models `Scheduler.groupByATS`: fold the poller list into a map, appending each
poller to the group of its ATS tag. -/
def groupByATS (pollers : List PollerCfg) : String → List PollerCfg :=
  pollers.foldl
    (fun groups p => fun a => if p.ats == a then groups a ++ [p] else groups a)
    (fun _ => [])

inductive SchedEvent where
  /-- Event recording that `p.Poll(ctx)` ran and returned success (`ok = true`) or an error that
  was logged (`ok = false`). -/
  | polled (name : String) (ok : Bool)
  /-- the `min_delay` sleep between consecutive same-group companies. -/
  | sleepMinDelay
  /-- the `polling_interval` sleep after a full pass. -/
  | sleepInterval
deriving Repr, DecidableEq

/-- The inner `for` of `runATSLoop`: poll each company in group order;
sleep `min_delay` after each company except the last.  `res p` tells whether
`p.Poll` succeeded. -/
def passEvents (res : PollerCfg → Bool) : List PollerCfg → List SchedEvent
  | [] => []
  | [p] => [.polled p.name (res p)]
  | p :: q :: rest =>
    .polled p.name (res p) :: .sleepMinDelay :: passEvents res (q :: rest)

/-- One full pass of `runATSLoop`: the inner loop followed by the
`polling_interval` sleep. -/
def atsPassTrace (res : PollerCfg → Bool) (group : List PollerCfg) :
    List SchedEvent :=
  passEvents res group ++ [.sleepInterval]

/-- The names polled by a trace, in order. -/
def polledNames (events : List SchedEvent) : List String :=
  events.filterMap (fun e =>
    match e with
    | .polled n _ => some n
    | _ => none)

/-! ### Store lemmas -/

theorem hasSeen_nil (x : String) : hasSeen [] x = false := rfl

theorem hasSeen_iff_mem (s : Store) (x : String) :
    hasSeen s x = true ↔ x ∈ s := by
  simp [hasSeen, List.elem_iff, List.contains]

theorem hasSeen_markSeen (s : Store) (i x : String) :
    hasSeen (markSeen s i) x = true ↔ (hasSeen s x = true ∨ x = i) := by
  by_cases h : s.contains i
  · simp only [markSeen, h, if_pos]
    rw [hasSeen_iff_mem]
    constructor
    · exact Or.inl
    · rintro (hx | rfl)
      · exact hx
      · exact (hasSeen_iff_mem s x).mp h
  · simp only [markSeen, h, if_neg, Bool.false_eq_true, not_false_iff]
    rw [hasSeen_iff_mem, hasSeen_iff_mem, List.mem_append, List.mem_singleton]

theorem hasSeen_commitAll (l : List Job) (s : Store) (x : String) :
    hasSeen (commitAll s l) x = true ↔
      (hasSeen s x = true ∨ x ∈ l.map Job.id) := by
  induction l generalizing s with
  | nil => simp [commitAll]
  | cons j t ih =>
    show hasSeen (commitAll (markSeen s j.id) t) x = true ↔ _
    rw [ih, hasSeen_markSeen]
    simp [or_assoc]

theorem length_le_markSeen (s : Store) (i : String) :
    s.length ≤ (markSeen s i).length := by
  unfold markSeen
  split
  · exact le_refl _
  · simp

theorem length_le_commitAll (l : List Job) (s : Store) :
    s.length ≤ (commitAll s l).length := by
  induction l generalizing s with
  | nil => simp [commitAll]
  | cons j t ih =>
    exact le_trans (length_le_markSeen s j.id) (ih (markSeen s j.id))

/-! ### Pipeline lemmas -/

theorem freshOK_seeding (maxAge now : Int) (j : Job) :
    freshOK true maxAge now j = true := by
  simp [freshOK]

theorem matchedJobs_seeding (maxAge now : Int) (filt : Job → Bool)
    (jobs : List Job) :
    matchedJobs true maxAge now filt jobs = jobs.filter filt := by
  simp [matchedJobs, freshOK]

theorem newJobsOf_seed_empty (maxAge now : Int) (filt : Job → Bool)
    (jobs : List Job) :
    newJobsOf true maxAge now filt jobs [] = jobs.filter filt := by
  simp [newJobsOf, matchedJobs_seeding, hasSeen]

theorem countP_filter_of_pred (q : Job → Bool) (l : List Job) (j : Job)
    (hq : q j = true) :
    (l.filter q).countP (fun a => decide (a = j)) =
      l.countP (fun a => decide (a = j)) := by
  induction l with
  | nil => rfl
  | cons a t ih =>
    by_cases ha : a = j
    · subst ha
      simp [List.filter_cons, hq, List.countP_cons, ih]
    · by_cases hqa : q a = true <;>
        simp [List.filter_cons, hqa, List.countP_cons, ha, ih]

/-! ### Claims about the poll cycle -/

/-- Claim C1: on a seeding cycle (the store's emptiness probe is true at the
start of the cycle), `Poll` commits the identifier of every surviving job —
fetched, filter-accepted (the freshness gate is bypassed and, the store being
empty, nothing is already seen) — via `MarkSeen`, returns success, and never
invokes the notifier; afterwards `has_seen` is true exactly for the survivors'
identifiers. -/
theorem c1_silent_seed (maxAge now : Int) (filt : Job → Bool) (jobs : List Job)
    (notify : List Job → Option GoErr) (store : Store)
    (hempty : store.isEmpty = true) :
    (poll maxAge now filt (.ok jobs) notify store).notifyCalls = [] ∧
    (poll maxAge now filt (.ok jobs) notify store).errorOut = none ∧
    ∀ x, hasSeen (poll maxAge now filt (.ok jobs) notify store).store x = true ↔
      x ∈ (jobs.filter filt).map Job.id := by
  have hstore : store = [] := List.isEmpty_iff.mp hempty
  subst hstore
  have hpoll : poll maxAge now filt (.ok jobs) notify [] =
      ⟨commitAll [] (jobs.filter filt), [], none⟩ := by
    simp [poll, newJobsOf_seed_empty]
  rw [hpoll]
  refine ⟨rfl, rfl, fun x => ?_⟩
  rw [hasSeen_commitAll]
  simp [hasSeen_nil]

/-- Witness for C1: the silent-seed scenario over jobs `{A, B, C}` — no
notifier call, no error, and `has_seen` true for `A`, `B` and `C`. -/
theorem c1_silent_seed_witness :
    (poll nsPerHour 0 (fun _ => true)
        (.ok [{ id := "A" }, { id := "B" }, { id := "C" }])
        (fun _ => none) []).notifyCalls = [] ∧
    (poll nsPerHour 0 (fun _ => true)
        (.ok [{ id := "A" }, { id := "B" }, { id := "C" }])
        (fun _ => none) []).errorOut = none ∧
    (hasSeen (poll nsPerHour 0 (fun _ => true)
        (.ok [{ id := "A" }, { id := "B" }, { id := "C" }])
        (fun _ => none) []).store "A" = true ∧
     hasSeen (poll nsPerHour 0 (fun _ => true)
        (.ok [{ id := "A" }, { id := "B" }, { id := "C" }])
        (fun _ => none) []).store "B" = true ∧
     hasSeen (poll nsPerHour 0 (fun _ => true)
        (.ok [{ id := "A" }, { id := "B" }, { id := "C" }])
        (fun _ => none) []).store "C" = true) := by
  have h := c1_silent_seed nsPerHour 0 (fun _ => true)
    [{ id := "A" }, { id := "B" }, { id := "C" }] (fun _ => none) [] rfl
  exact ⟨h.1, h.2.1,
    (h.2.2 "A").mpr (by decide), (h.2.2 "B").mpr (by decide),
    (h.2.2 "C").mpr (by decide)⟩

/-- Claim C2: on a non-seeding cycle an identifier is committed only after
the (at most one) notifier call for the cycle's batch returned success: a
notifier error makes `Poll` return that error (wrapped) with the store
unchanged, and every identifier newly committed belongs to the successfully
delivered batch. -/
theorem c2_commit_after_notify (maxAge now : Int) (filt : Job → Bool)
    (jobs : List Job) (notify : List Job → Option GoErr) (store : Store)
    (hne : store.isEmpty = false) :
    (∀ e, newJobsOf false maxAge now filt jobs store ≠ [] →
      notify (newJobsOf false maxAge now filt jobs store) = some e →
      poll maxAge now filt (.ok jobs) notify store =
        ⟨store, [newJobsOf false maxAge now filt jobs store],
          some (.notifyFailed e)⟩) ∧
    (poll maxAge now filt (.ok jobs) notify store).notifyCalls.length ≤ 1 ∧
    (∀ x, hasSeen (poll maxAge now filt (.ok jobs) notify store).store x = true →
      hasSeen store x = false →
      notify (newJobsOf false maxAge now filt jobs store) = none ∧
      x ∈ (newJobsOf false maxAge now filt jobs store).map Job.id) := by
  refine ⟨?_, ?_, ?_⟩
  · intro e hbne hnot
    have hb : (newJobsOf false maxAge now filt jobs store).isEmpty = false := by
      cases hbl : (newJobsOf false maxAge now filt jobs store).isEmpty
      · rfl
      · exact absurd (List.isEmpty_iff.mp hbl) hbne
    simp [poll, hne, hb, hnot]
  · by_cases hb : (newJobsOf false maxAge now filt jobs store).isEmpty
    · simp [poll, hne, hb]
    · cases hnot : notify (newJobsOf false maxAge now filt jobs store) <;>
        simp [poll, hne, hb, hnot]
  · intro x hx hx'
    by_cases hb : (newJobsOf false maxAge now filt jobs store).isEmpty
    · simp only [poll, hne, hb] at hx
      simp at hx
      rw [hx'] at hx
      cases hx
    · cases hnot : notify (newJobsOf false maxAge now filt jobs store) with
      | some e =>
        simp only [poll, hne, hb] at hx
        simp [hnot] at hx
        rw [hx'] at hx
        cases hx
      | none =>
        simp only [poll, hne, hb] at hx
        simp [hnot] at hx
        rcases (hasSeen_commitAll _ _ _).mp hx with h | h
        · rw [hx'] at h
          cases h
        · exact ⟨rfl, h⟩

/-- Witness for C2: with a non-empty store (`seen`) and one fresh unseen job
`D`, a failing notifier makes the cycle return the notifier error with the
store unchanged and the single call's batch equal to `[D]`. -/
theorem c2_commit_after_notify_witness :
    poll nsPerHour 0 (fun _ => true) (.ok [{ id := "D" }])
        (fun _ => some (.plain "slack down")) ["seen"] =
      ⟨["seen"], [[{ id := "D" }]],
        some (.notifyFailed (.plain "slack down"))⟩ := by
  have h := (c2_commit_after_notify nsPerHour 0 (fun _ => true) [{ id := "D" }]
    (fun _ => some (.plain "slack down")) ["seen"] rfl).1
    (.plain "slack down") (by decide) rfl
  exact h

/-- Claim C3 (the current `poller.go` is absent from the sources; the window
is modelled from the spec as the configured `max_age`, validated to lie in
`[1h, 24h]`): on a non-seeding cycle the freshness gate discards exactly the
records whose `posted_at` is present and strictly older than `now - max_age`;
the boundary record is kept, an absent `posted_at` always passes, and on a
seeding cycle the gate is bypassed for every record. -/
theorem c3_freshness_gate (maxAge now : Int)
    (h1 : nsPerHour ≤ maxAge) (h2 : maxAge ≤ 24 * nsPerHour) :
    (∀ (j : Job) (t : Int), j.postedAt = some t →
      (freshOK false maxAge now j = false ↔ t < now - maxAge)) ∧
    (∀ j : Job, j.postedAt = some (now - maxAge) →
      freshOK false maxAge now j = true) ∧
    (∀ j : Job, j.postedAt = none → freshOK false maxAge now j = true) ∧
    (∀ j : Job, freshOK true maxAge now j = true) ∧
    (∀ (filt : Job → Bool) (jobs : List Job) (j : Job),
      j ∈ matchedJobs false maxAge now filt jobs ↔
        (j ∈ jobs ∧ filt j = true ∧ freshOK false maxAge now j = true)) := by
  refine ⟨?_, ?_, ?_, ?_, ?_⟩
  · intro j t hj
    simp [freshOK, hj]
  · intro j hj
    simp [freshOK, hj]
  · intro j hj
    simp [freshOK, hj]
  · intro j
    exact freshOK_seeding maxAge now j
  · intro filt jobs j
    simp [matchedJobs, List.mem_filter, Bool.and_eq_true, and_assoc]

/-- Witness for C3 at `max_age = 1h`, `now = 0`: the boundary record is kept,
an absent timestamp passes, a two-hour-old record is kept while seeding and
discarded otherwise. -/
theorem c3_freshness_gate_witness :
    freshOK false nsPerHour 0 { id := "edge", postedAt := some (0 - nsPerHour) } = true ∧
    freshOK false nsPerHour 0 { id := "undated" } = true ∧
    freshOK true nsPerHour 0 { id := "old", postedAt := some (0 - 2 * nsPerHour) } = true ∧
    freshOK false nsPerHour 0 { id := "old", postedAt := some (0 - 2 * nsPerHour) } = false := by
  have h := c3_freshness_gate nsPerHour 0 (le_refl _) (by decide)
  exact ⟨h.2.1 _ rfl, h.2.2.1 _ rfl, h.2.2.2.1 _, (h.1 _ _ rfl).mpr (by decide)⟩

/-- Counterexample to Claim C5 as stated: the fetcher returns job `X`, the
filter rejects it; after two consecutive cycles from an empty store there are
zero notifications, but the store does not contain `X` — it does not hold the
full set of identifiers returned by the fetcher. -/
theorem c5_counterexample :
    (poll nsPerHour 0 (fun _ => false) (.ok [{ id := "X" }]) (fun _ => none)
        []).notifyCalls = [] ∧
    (poll nsPerHour 0 (fun _ => false) (.ok [{ id := "X" }]) (fun _ => none)
        (poll nsPerHour 0 (fun _ => false) (.ok [{ id := "X" }])
          (fun _ => none) []).store).notifyCalls = [] ∧
    hasSeen (poll nsPerHour 0 (fun _ => false) (.ok [{ id := "X" }])
        (fun _ => none)
        (poll nsPerHour 0 (fun _ => false) (.ok [{ id := "X" }])
          (fun _ => none) []).store).store "X" = false := by
  decide

/-- Claim C5 as amended: starting from an empty store, two consecutive `Poll`
cycles against identical fetcher responses leave the store containing exactly
the identifiers of the *filter-accepted* jobs returned by the fetcher, and
deliver zero notifications in total (the first cycle seeds silently, the
second commits nothing new and never calls the notifier). -/
theorem c5_two_cycles_amended (maxAge now1 now2 : Int) (filt : Job → Bool)
    (jobs : List Job) (notify1 notify2 : List Job → Option GoErr) :
    (poll maxAge now1 filt (.ok jobs) notify1 []).notifyCalls = [] ∧
    (poll maxAge now2 filt (.ok jobs) notify2
      (poll maxAge now1 filt (.ok jobs) notify1 []).store).notifyCalls = [] ∧
    (poll maxAge now2 filt (.ok jobs) notify2
      (poll maxAge now1 filt (.ok jobs) notify1 []).store).store =
      (poll maxAge now1 filt (.ok jobs) notify1 []).store ∧
    ∀ x, hasSeen (poll maxAge now2 filt (.ok jobs) notify2
      (poll maxAge now1 filt (.ok jobs) notify1 []).store).store x = true ↔
        x ∈ (jobs.filter filt).map Job.id := by
  have hpoll1 : poll maxAge now1 filt (.ok jobs) notify1 [] =
      ⟨commitAll [] (jobs.filter filt), [], none⟩ := by
    simp [poll, newJobsOf_seed_empty]
  have hchar : ∀ x, hasSeen (commitAll [] (jobs.filter filt)) x = true ↔
      x ∈ (jobs.filter filt).map Job.id := by
    intro x
    rw [hasSeen_commitAll]
    simp [hasSeen_nil]
  have hout2 : poll maxAge now2 filt (.ok jobs) notify2
      (commitAll [] (jobs.filter filt)) =
      ⟨commitAll [] (jobs.filter filt), [], none⟩ := by
    by_cases hfil : jobs.filter filt = []
    · rw [hfil]
      simp [poll, newJobsOf_seed_empty, hfil, commitAll]
    · obtain ⟨j, t, hjt⟩ := List.exists_cons_of_ne_nil hfil
      have hmark : markSeen [] j.id = [j.id] := rfl
      have hlen : 1 ≤ (commitAll [] (jobs.filter filt)).length := by
        rw [hjt]
        show 1 ≤ (commitAll (markSeen [] j.id) t).length
        rw [hmark]
        exact le_trans (by simp) (length_le_commitAll t [j.id])
      have hne2 : (commitAll [] (jobs.filter filt)).isEmpty = false := by
        cases hs : commitAll [] (jobs.filter filt) with
        | nil => rw [hs] at hlen; simp at hlen
        | cons _ _ => rfl
      have hbatch : newJobsOf false maxAge now2 filt jobs
          (commitAll [] (jobs.filter filt)) = [] := by
        rw [newJobsOf, List.filter_eq_nil_iff]
        intro a ha
        have hfa : filt a = true ∧ a ∈ jobs := by
          rcases List.mem_filter.mp ha with ⟨haj, hcond⟩
          rw [Bool.and_eq_true] at hcond
          exact ⟨hcond.1, haj⟩
        have hmem : a.id ∈ (jobs.filter filt).map Job.id :=
          List.mem_map_of_mem Job.id (List.mem_filter.mpr ⟨hfa.2, hfa.1⟩)
        have hseen : hasSeen (commitAll [] (jobs.filter filt)) a.id = true :=
          (hchar a.id).mpr hmem
        simp [hseen]
      simp [poll, hne2, hbatch]
  rw [hpoll1]
  dsimp only
  rw [hout2]
  exact ⟨rfl, rfl, rfl, hchar⟩

/-- Claim C10: dedup consults only the store, never the current batch — on a
non-seeding cycle every matched record whose identifier the store has not
seen survives dedup with its multiplicity intact (duplicates included, since
`HasSeen` is evaluated against the pre-cycle store for every survivor before
any `MarkSeen` runs), and on notifier success the whole batch is delivered in
the cycle's single call. -/
theorem c10_dedup_store_only (maxAge now : Int) (filt : Job → Bool)
    (jobs : List Job) (notify : List Job → Option GoErr) (store : Store)
    (hne : store.isEmpty = false) :
    (∀ j : Job, hasSeen store j.id = false →
      (newJobsOf false maxAge now filt jobs store).countP
          (fun a => decide (a = j)) =
        (matchedJobs false maxAge now filt jobs).countP
          (fun a => decide (a = j))) ∧
    (notify (newJobsOf false maxAge now filt jobs store) = none →
      newJobsOf false maxAge now filt jobs store ≠ [] →
      poll maxAge now filt (.ok jobs) notify store =
        ⟨commitAll store (newJobsOf false maxAge now filt jobs store),
          [newJobsOf false maxAge now filt jobs store], none⟩) := by
  refine ⟨?_, ?_⟩
  · intro j hj
    rw [newJobsOf]
    exact countP_filter_of_pred _ _ _ (by simp [hj])
  · intro hnot hbne
    have hb : (newJobsOf false maxAge now filt jobs store).isEmpty = false := by
      cases hbl : (newJobsOf false maxAge now filt jobs store).isEmpty
      · rfl
      · exact absurd (List.isEmpty_iff.mp hbl) hbne
    simp [poll, hne, hb, hnot]

/-- Witness for C10: a non-seeding cycle (store holds `zz`) fetching two
records with identifier `J` delivers both copies in the cycle's single
batch. -/
theorem c10_dedup_store_only_witness :
    (newJobsOf false nsPerHour 0 (fun _ => true)
        [{ id := "J" }, { id := "J" }] ["zz"]).countP
      (fun a => decide (a = ({ id := "J" } : Job))) = 2 ∧
    (poll nsPerHour 0 (fun _ => true) (.ok [{ id := "J" }, { id := "J" }])
        (fun _ => none) ["zz"]).notifyCalls =
      [[{ id := "J" }, { id := "J" }]] := by
  have h := c10_dedup_store_only nsPerHour 0 (fun _ => true)
    [{ id := "J" }, { id := "J" }] (fun _ => none) ["zz"] rfl
  refine ⟨(h.1 { id := "J" } (by decide)).trans (by decide), ?_⟩
  rw [h.2 rfl (by decide)]
  decide

/-! ### Retry lemmas -/

theorem retryLoop_calls_le (inner : Nat → Except GoErr (List Job)) :
    ∀ (rem callIdx : Nat) (e : GoErr),
      (retryLoop inner callIdx e rem).2 ≤ callIdx + rem := by
  intro rem
  induction rem with
  | zero =>
    intro callIdx e
    simp [retryLoop]
  | succ n ih =>
    intro callIdx e
    rw [retryLoop]
    cases hc : inner callIdx with
    | ok jobs =>
      dsimp only
      omega
    | error e' =>
      dsimp only
      by_cases hr : isRetryable (some e') = true
      · rw [if_pos hr]
        exact le_trans (ih (callIdx + 1) e') (by omega)
      · rw [if_neg hr]
        dsimp only
        omega

theorem retryLoop_prior_retryable (inner : Nat → Except GoErr (List Job)) :
    ∀ (rem callIdx : Nat) (e0 : GoErr),
      (∀ k, k < callIdx →
        ∃ e, inner k = .error e ∧ isRetryable (some e) = true) →
      ∀ k, k + 1 < (retryLoop inner callIdx e0 rem).2 →
        ∃ e, inner k = .error e ∧ isRetryable (some e) = true := by
  intro rem
  induction rem with
  | zero =>
    intro callIdx e0 hprior k hk
    simp [retryLoop] at hk
    exact hprior k (by omega)
  | succ n ih =>
    intro callIdx e0 hprior k hk
    rw [retryLoop] at hk
    cases hc : inner callIdx with
    | ok jobs =>
      rw [hc] at hk
      dsimp only at hk
      exact hprior k (by omega)
    | error e' =>
      rw [hc] at hk
      dsimp only at hk
      by_cases hr : isRetryable (some e') = true
      · rw [if_pos hr] at hk
        refine ih (callIdx + 1) e' ?_ k hk
        intro k' hk'
        rcases Nat.lt_or_ge k' callIdx with h | h
        · exact hprior k' h
        · have : k' = callIdx := by omega
          exact this ▸ ⟨e', hc, hr⟩
      · rw [if_neg hr] at hk
        dsimp only at hk
        exact hprior k (by omega)

theorem retryLoop_stops_nonretryable (inner : Nat → Except GoErr (List Job)) :
    ∀ (rem callIdx : Nat) (e0 : GoErr) (kk : Nat) (e : GoErr),
      callIdx ≤ kk → kk < callIdx + rem →
      (∀ j, callIdx ≤ j → j < kk →
        ∃ e', inner j = .error e' ∧ isRetryable (some e') = true) →
      inner kk = .error e → isRetryable (some e) = false →
      retryLoop inner callIdx e0 rem = (.error e, kk + 1) := by
  intro rem
  induction rem with
  | zero =>
    intro callIdx e0 kk e h1 h2 _ _ _
    omega
  | succ n ih =>
    intro callIdx e0 kk e h1 h2 hmid he hnr
    by_cases hck : callIdx = kk
    · subst hck
      rw [retryLoop, he]
      dsimp only
      rw [if_neg (by simp [hnr])]
    · have hlt : callIdx < kk := by omega
      obtain ⟨e', he', hr'⟩ := hmid callIdx (le_refl _) hlt
      rw [retryLoop, he']
      dsimp only
      rw [if_pos hr']
      exact ih (callIdx + 1) e' kk e (by omega) (by omega)
        (fun j hj1 hj2 => hmid j (by omega) hj2) he hnr

theorem retryLoop_exhaust (inner : Nat → Except GoErr (List Job)) :
    ∀ (rem callIdx : Nat) (e0 : GoErr),
      (∀ k, callIdx ≤ k → k < callIdx + rem →
        ∃ e', inner k = .error e' ∧ isRetryable (some e') = true) →
      ∃ eL, retryLoop inner callIdx e0 rem = (.error eL, callIdx + rem) ∧
        ((rem = 0 ∧ eL = e0) ∨
          (∃ r', rem = r' + 1 ∧ inner (callIdx + r') = .error eL)) := by
  intro rem
  induction rem with
  | zero =>
    intro callIdx e0 _
    exact ⟨e0, by simp [retryLoop], Or.inl ⟨rfl, rfl⟩⟩
  | succ n ih =>
    intro callIdx e0 hall
    obtain ⟨e1, he1, hr1⟩ := hall callIdx (le_refl _) (by omega)
    obtain ⟨eL, hres, hcase⟩ := ih (callIdx + 1) e1
      (fun k hk1 hk2 => hall k (by omega) (by omega))
    refine ⟨eL, ?_, ?_⟩
    · rw [retryLoop, he1]
      dsimp only
      rw [if_pos hr1, hres]
      congr 1
      omega
    · rcases hcase with ⟨hn0, heq⟩ | ⟨r', hr', hinner⟩
      · subst hn0
        subst heq
        exact Or.inr ⟨0, rfl, by simpa using he1⟩
      · refine Or.inr ⟨r' + 1, by omega, ?_⟩
        have : callIdx + (r' + 1) = callIdx + 1 + r' := by omega
        rw [this]
        exact hinner

/-- Claim C4: `RetryFetcher.FetchJobs` makes at most `1 + N` calls to the
wrapped fetcher; every retried call had returned a retryable error (plain
non-transport errors, `HTTPError` 429 or `>= 500`); a non-retryable error
(other 4xx transport errors, cancellation) is returned immediately with no
further attempts; when all `1 + N` attempts fail with retryable errors the
last error is returned; and a failed fetch aborts the cycle with no notifier
call and the store unchanged. -/
theorem c4_retry_policy (m : Nat) (inner : Nat → Except GoErr (List Job)) :
    (fetchJobsRetry m inner).2 ≤ 1 + m ∧
    (∀ k, k + 1 < (fetchJobsRetry m inner).2 →
      ∃ e, inner k = .error e ∧ isRetryable (some e) = true) ∧
    (∀ kk e, kk ≤ m →
      (∀ j, j < kk → ∃ e', inner j = .error e' ∧ isRetryable (some e') = true) →
      inner kk = .error e → isRetryable (some e) = false →
      fetchJobsRetry m inner = (.error e, kk + 1)) ∧
    (∀ e, inner m = .error e →
      (∀ k, k ≤ m → ∃ e', inner k = .error e' ∧ isRetryable (some e') = true) →
      fetchJobsRetry m inner = (.error e, m + 1)) ∧
    ((∀ msg, isRetryable (some (.plain msg)) = true) ∧
      (∀ r, isRetryable (some (.http 429 r)) = true) ∧
      (∀ s r, 500 ≤ s → isRetryable (some (.http s r)) = true) ∧
      (∀ s r, 400 ≤ s → s < 500 → s ≠ 429 →
        isRetryable (some (.http s r)) = false) ∧
      isRetryable (some .canceled) = false) ∧
    (∀ (maxAge now : Int) (filt : Job → Bool)
        (notify : List Job → Option GoErr) (store : Store) (e : GoErr),
      (fetchJobsRetry m inner).1 = .error e →
      poll maxAge now filt ((fetchJobsRetry m inner).1) notify store =
        ⟨store, [], some (.fetchFailed e)⟩) := by
  refine ⟨?_, ?_, ?_, ?_, ⟨?_, ?_, ?_, ?_, rfl⟩, ?_⟩
  · rw [fetchJobsRetry]
    cases hc : inner 0 with
    | ok jobs => dsimp only; omega
    | error e =>
      dsimp only
      by_cases hr : isRetryable (some e) = true
      · rw [if_pos hr]
        exact le_trans (retryLoop_calls_le inner m 1 e) (by omega)
      · rw [if_neg hr]
        dsimp only
        omega
  · intro k hk
    rw [fetchJobsRetry] at hk
    cases hc : inner 0 with
    | ok jobs =>
      rw [hc] at hk
      dsimp only at hk
      omega
    | error e =>
      rw [hc] at hk
      dsimp only at hk
      by_cases hr : isRetryable (some e) = true
      · rw [if_pos hr] at hk
        refine retryLoop_prior_retryable inner m 1 e ?_ k hk
        intro k' hk'
        have : k' = 0 := by omega
        exact this ▸ ⟨e, hc, hr⟩
      · rw [if_neg hr] at hk
        dsimp only at hk
        omega
  · intro kk e hkm hprior he hnr
    cases kk with
    | zero =>
      rw [fetchJobsRetry, he]
      dsimp only
      rw [if_neg (by simp [hnr])]
    | succ kk' =>
      obtain ⟨e0, he0, hr0⟩ := hprior 0 (by omega)
      rw [fetchJobsRetry, he0]
      dsimp only
      rw [if_pos hr0]
      exact retryLoop_stops_nonretryable inner m 1 e0 (kk' + 1) e (by omega)
        (by omega) (fun j hj1 hj2 => hprior j (by omega)) he hnr
  · intro e hm hall
    obtain ⟨e0, he0, hr0⟩ := hall 0 (by omega)
    rw [fetchJobsRetry, he0]
    dsimp only
    rw [if_pos hr0]
    obtain ⟨eL, hres, hcase⟩ := retryLoop_exhaust inner m 1 e0
      (fun k hk1 hk2 => hall k (by omega))
    have heL : eL = e := by
      rcases hcase with ⟨hm0, heq⟩ | ⟨r', hr', hinner⟩
      · subst hm0
        subst heq
        rw [hm] at he0
        cases he0
        rfl
      · have : 1 + r' = m := by omega
        rw [this, hm] at hinner
        cases hinner
        rfl
    rw [hres, heL]
    congr 1
    omega
  · intro msg
    rfl
  · intro r
    rfl
  · intro s r h5
    have h429 : (s == 429) = false := beq_eq_false_iff_ne.mpr (by omega)
    simp [isRetryable, GoErr.isCanceledOrDeadline, GoErr.asHTTP, h429, h5]
  · intro s r h4a h4b h429
    have h429' : (s == 429) = false := beq_eq_false_iff_ne.mpr h429
    have h5 : ¬ (500 ≤ s) := by omega
    simp [isRetryable, GoErr.isCanceledOrDeadline, GoErr.asHTTP, h429', h5]
  · intro maxAge now filt notify store e hres
    rw [hres]
    rfl

/-- Witness for C4: a fetcher failing with `HTTPError` 503 on every attempt,
wrapped with `N = 2`, is called exactly 3 times and the last 503 is returned;
the poll cycle then returns that error with an unchanged store and no
notifier call; a 404 is returned after a single call. -/
theorem c4_retry_policy_witness :
    fetchJobsRetry 2 (fun _ => .error (.http 503 0)) =
      (.error (.http 503 0), 3) ∧
    poll nsPerHour 0 (fun _ => true)
        ((fetchJobsRetry 2 (fun _ => .error (.http 503 0))).1)
        (fun _ => none) ["seeded"] =
      ⟨["seeded"], [], some (.fetchFailed (.http 503 0))⟩ ∧
    fetchJobsRetry 2 (fun _ => .error (.http 404 0)) =
      (.error (.http 404 0), 1) := by
  have h := c4_retry_policy 2 (fun _ => .error (.http 503 0))
  have h404 := c4_retry_policy 2 (fun _ => .error (.http 404 0))
  refine ⟨?_, ?_, ?_⟩
  · exact h.2.2.2.1 (.http 503 0) rfl (fun k _ => ⟨.http 503 0, rfl, by decide⟩)
  · exact h.2.2.2.2.2 nsPerHour 0 (fun _ => true) (fun _ => none) ["seeded"]
      (.http 503 0) rfl
  · exact h404.2.2.1 0 (.http 404 0) (by omega) (fun j hj => absurd hj (by omega))
      rfl (by decide)

/-- Counterexample to Claim C6 as stated: a JSON decode failure is a plain
(non-transport) error — here `fmt.Errorf("... decode: %w", err)` over the
decoder's error — and the retry decorator does retry it: with `N = 2` the
wrapped fetcher is called 3 times, not once. -/
theorem c6_counterexample :
    (fetchJobsRetry 2 (fun _ =>
      .error (.wrapf "greenhouse fetch decode" (.plain "invalid character")))).2
      = 3 ∧
    ¬ (fetchJobsRetry 2 (fun _ =>
      .error (.wrapf "greenhouse fetch decode" (.plain "invalid character")))).2
      = 1 := by
  constructor
  · rfl
  · decide

/-- Claim C6 as amended: a parse failure is a plain non-transport error and is
therefore classified retryable; the retry decorator retries it like any other
transient failure, and only after all `1 + N` attempts fail does the final
parse error abort the fetch and the poll cycle (no notifier call, store
unchanged). -/
theorem c6_parse_error_amended (m : Nat) (msg cause : String) (maxAge now : Int)
    (filt : Job → Bool) (notify : List Job → Option GoErr) (store : Store) :
    isRetryable (some (.wrapf msg (.plain cause))) = true ∧
    fetchJobsRetry m (fun _ => .error (.wrapf msg (.plain cause))) =
      (.error (.wrapf msg (.plain cause)), m + 1) ∧
    poll maxAge now filt (.error (.wrapf msg (.plain cause))) notify store =
      ⟨store, [], some (.fetchFailed (.wrapf msg (.plain cause)))⟩ := by
  have hretr : isRetryable (some (.wrapf msg (.plain cause))) = true := rfl
  refine ⟨hretr, ?_, rfl⟩
  rw [fetchJobsRetry]
  dsimp only
  rw [if_pos hretr]
  obtain ⟨eL, hres, hcase⟩ := retryLoop_exhaust
    (fun _ => .error (.wrapf msg (.plain cause))) m 1
    (.wrapf msg (.plain cause)) (fun k _ _ => ⟨_, rfl, hretr⟩)
  have heL : eL = .wrapf msg (.plain cause) := by
    rcases hcase with ⟨_, heq⟩ | ⟨r', _, hinner⟩
    · exact heq
    · cases hinner
      rfl
  rw [hres, heL]
  congr 1
  omega

/-- Claim C7: for retry attempt `k >= 1` the computed backoff is
`baseDelay * 2^(k-1)` scaled by the jitter factor `1 + (2u - 1) * 0.3`, which
for the uniform sample `u ∈ [0,1]` ranges over exactly `[0.7, 1.3]` (the
factor is an affine bijection of the sample, so it is uniformly distributed
there); when the error carries a `HTTPError` with a positive server-requested
retry delay, that delay is returned instead. -/
theorem c7_backoff_delay (baseDelay : Int) (attempt : Nat) (u : ℚ) (err : GoErr)
    (hb : 0 < baseDelay) (ha : 1 ≤ attempt) (hu0 : 0 ≤ u) (hu1 : u ≤ 1) :
    (∀ s ra, err.asHTTP = some (s, ra) → 0 < ra →
      backoffDelay baseDelay attempt u err = ra) ∧
    ((err.asHTTP = none ∨ ∃ s ra, err.asHTTP = some (s, ra) ∧ ¬ 0 < ra) →
      backoffDelay baseDelay attempt u err =
        Int.floor (((baseDelay * 2 ^ (attempt - 1) : Int) : ℚ) *
          jitterFactor u)) ∧
    (7 / 10 ≤ jitterFactor u ∧ jitterFactor u ≤ 13 / 10) ∧
    (∀ c : ℚ, 7 / 10 ≤ c → c ≤ 13 / 10 →
      ∃ v : ℚ, 0 ≤ v ∧ v ≤ 1 ∧ jitterFactor v = c) := by
  refine ⟨?_, ?_, ⟨?_, ?_⟩, ?_⟩
  · intro s ra has hra
    rw [backoffDelay, has]
    dsimp only
    rw [if_pos hra]
  · intro hcase
    rcases hcase with hnone | ⟨s, ra, hsome, hra⟩
    · rw [backoffDelay, hnone]
    · rw [backoffDelay, hsome]
      dsimp only
      rw [if_neg hra]
  · rw [jitterFactor]
    nlinarith
  · rw [jitterFactor]
    nlinarith
  · intro c hc1 hc2
    refine ⟨(10 * c - 7) / 6, by linarith, by linarith, ?_⟩
    rw [jitterFactor]
    ring

/-- Witness for C7: with the default base delay of 5 s, attempt 1 and a
mid-range jitter sample, a 429 carrying a 250 ms retry-after returns 250 ms;
a plain error yields the unjittered 5 s (`jitterFactor (1/2) = 1`). -/
theorem c7_backoff_delay_witness :
    backoffDelay 5000000000 1 (1 / 2) (.http 429 250000000) = 250000000 ∧
    backoffDelay 5000000000 1 (1 / 2) (.plain "conn reset") = 5000000000 := by
  have h429 := c7_backoff_delay 5000000000 1 (1 / 2) (.http 429 250000000)
    (by norm_num) (le_refl _) (by norm_num) (by norm_num)
  have hplain := c7_backoff_delay 5000000000 1 (1 / 2) (.plain "conn reset")
    (by norm_num) (le_refl _) (by norm_num) (by norm_num)
  refine ⟨h429.1 429 250000000 rfl (by norm_num), ?_⟩
  rw [hplain.2.1 (Or.inl rfl)]
  norm_num [jitterFactor]

/-! ### Microsoft pagination lemmas -/

theorem fetchAllAux_spec (cutoff : Int) (pages : List (List MSPosition))
    (count : Nat) :
    ∀ (fuel start : Nat), count ≤ start + msPageSize * fuel → 1 ≤ fuel →
      ∃ k, fetchAllAux false cutoff pages count fuel start =
          joinedPages pages start k ∧
        (∀ i, i < k →
          hasAnyFresh cutoff (pageAt pages (start + msPageSize * i)) = true ∧
          start + msPageSize * i + msPageSize < count) ∧
        (hasAnyFresh cutoff (pageAt pages (start + msPageSize * k)) = false ∨
          count ≤ start + msPageSize * k + msPageSize) := by
  intro fuel
  induction fuel with
  | zero =>
    intro start _ h2
    omega
  | succ n ih =>
    intro start hcount _
    rw [fetchAllAux]
    simp only [Bool.not_false, Bool.true_and, Bool.false_and, if_false,
      Bool.false_eq_true]
    by_cases hfresh : hasAnyFresh cutoff (pageAt pages start) = false
    · rw [hfresh]
      simp only [Bool.not_false, if_true]
      refine ⟨0, rfl, fun i hi => absurd hi (by omega), Or.inl ?_⟩
      simpa using hfresh
    · have hfresh' : hasAnyFresh cutoff (pageAt pages start) = true := by
        cases hf : hasAnyFresh cutoff (pageAt pages start)
        · exact absurd hf hfresh
        · rfl
      rw [hfresh']
      simp only [Bool.not_true, if_false, Bool.false_eq_true]
      by_cases hcnt : count ≤ start + msPageSize
      · rw [if_pos hcnt]
        refine ⟨0, rfl, fun i hi => absurd hi (by omega), Or.inr ?_⟩
        simpa using hcnt
      · rw [if_neg hcnt]
        have hn1 : 1 ≤ n := by
          simp only [msPageSize] at hcount hcnt ⊢
          omega
        obtain ⟨k', hres, hmid, hstop⟩ := ih (start + msPageSize)
          (by simp only [msPageSize] at hcount hcnt ⊢; omega) hn1
        refine ⟨k' + 1, ?_, ?_, ?_⟩
        · rw [joinedPages, hres]
        · intro i hi
          cases i with
          | zero =>
            refine ⟨by simpa using hfresh', ?_⟩
            simp only [msPageSize] at hcnt ⊢
            omega
          | succ j =>
            have hj := hmid j (by omega)
            have harith : start + msPageSize * (j + 1) =
                start + msPageSize + msPageSize * j := by ring
            rw [harith]
            refine ⟨hj.1, ?_⟩
            have := hj.2
            omega
        · have harith : start + msPageSize * (k' + 1) =
              start + msPageSize + msPageSize * k' := by ring
          rw [harith]
          exact hstop

/-- Claim C8: in normal (non-audit) mode the Microsoft adapter's own 24-hour
freshness gate lets through exactly the fetched positions with a non-zero
`postedTs` not strictly older than the cutoff; and pagination stops early
exactly after the first page with no position posted within the cutoff — a
page with any fresh position anywhere on it (not merely a fresh last entry)
keeps pagination going while results remain. -/
theorem c8_microsoft_gate_and_pagination (now : Int) (company : String)
    (pages : List (List MSPosition)) (count : Nat) :
    (∀ job ∈ msFetchJobs false now company pages count,
      ∃ t, job.postedAt = some t ∧ now - msCutoffNs ≤ t) ∧
    (∀ p ∈ fetchAllPositions false now pages count,
      p.postedTs ≠ 0 → ¬ (postedNs p < now - msCutoffNs) →
      jobFromPosition company p ∈ msFetchJobs false now company pages count) ∧
    (∃ k, fetchAllPositions false now pages count = joinedPages pages 0 k ∧
      (∀ i, i < k →
        hasAnyFresh (now - msCutoffNs) (pageAt pages (msPageSize * i)) = true ∧
        msPageSize * i + msPageSize < count) ∧
      (hasAnyFresh (now - msCutoffNs) (pageAt pages (msPageSize * k)) = false ∨
        count ≤ msPageSize * k + msPageSize)) := by
  refine ⟨?_, ?_, ?_⟩
  · intro job hj
    obtain ⟨p, hp, hf⟩ := List.mem_filterMap.mp hj
    by_cases h0 : (p.postedTs == 0) = true
    · rw [if_pos h0] at hf
      cases hf
    · rw [if_neg h0] at hf
      simp only [Bool.not_false, Bool.true_and] at hf
      by_cases hst : postedNs p < now - msCutoffNs
      · rw [if_pos (by simpa using hst)] at hf
        cases hf
      · rw [if_neg (by simpa using hst)] at hf
        cases hf
        exact ⟨postedNs p, rfl, by omega⟩
  · intro p hp h0 hfr
    refine List.mem_filterMap.mpr ⟨p, hp, ?_⟩
    rw [if_neg (by simp [h0]), if_neg (by simpa using hfr)]
  · have h := fetchAllAux_spec (now - msCutoffNs) pages count
      (count / msPageSize + 1) 0
      (by simp only [msPageSize]; omega) (Nat.succ_le_succ (Nat.zero_le _))
    obtain ⟨k, h1, h2, h3⟩ := h
    refine ⟨k, h1, fun i hi => ?_, ?_⟩
    · simpa using h2 i hi
    · simpa using h3

/-- Demonstration fixtures for the Microsoft witness: `now` is two days after
the epoch, so the adapter cutoff falls one day after the epoch.  The first
page carries a fresh position followed by a stale one (a stale *last* entry),
the second page is entirely stale. -/
def msDemoFresh : MSPosition := { id := 1, name := "SWE II", postedTs := 172000 }

def msDemoStaleA : MSPosition := { id := 2, name := "Old A", postedTs := 3600 }

def msDemoStaleB : MSPosition := { id := 3, name := "Old B", postedTs := 100 }

def msDemoPages : List (List MSPosition) :=
  [[msDemoFresh, msDemoStaleA], [msDemoStaleB], []]

def msDemoNow : Int := 2 * 86400 * nsPerSec

/-- Witness for C8: the fresh position survives the internal gate with a
timestamp within the cutoff; pagination continued past the first page even
though that page's last entry was stale, and stopped after the all-stale
second page (the third page was never fetched). -/
theorem c8_microsoft_witness :
    (∃ t, (jobFromPosition "Microsoft" msDemoFresh).postedAt = some t ∧
      msDemoNow - msCutoffNs ≤ t) ∧
    jobFromPosition "Microsoft" msDemoFresh ∈
      msFetchJobs false msDemoNow "Microsoft" msDemoPages 25 ∧
    fetchAllPositions false msDemoNow msDemoPages 25 =
      [msDemoFresh, msDemoStaleA, msDemoStaleB] := by
  have h := c8_microsoft_gate_and_pagination msDemoNow "Microsoft" msDemoPages 25
  exact ⟨h.1 (jobFromPosition "Microsoft" msDemoFresh) (by decide),
    h.2.1 msDemoFresh (by decide) (by decide) (by decide), by decide⟩

/-! ### Scheduler lemmas -/

theorem groupByATS_foldl (ps : List PollerCfg) :
    ∀ (m : String → List PollerCfg) (a : String),
      (ps.foldl
        (fun groups p => fun b => if p.ats == b then groups b ++ [p]
          else groups b) m) a =
      m a ++ ps.filter (fun p => p.ats == a) := by
  induction ps with
  | nil =>
    intro m a
    simp
  | cons p t ih =>
    intro m a
    rw [List.foldl_cons, ih]
    by_cases h : (p.ats == a) = true
    · simp [List.filter_cons, h]
    · simp only [Bool.not_eq_true] at h
      simp [List.filter_cons, h]

theorem polledNames_passEvents (res : PollerCfg → Bool) :
    ∀ g, polledNames (passEvents res g) = g.map PollerCfg.name := by
  intro g
  induction g with
  | nil => rfl
  | cons p t ih =>
    cases t with
    | nil => rfl
    | cons q r =>
      show polledNames (.polled p.name (res p) :: .sleepMinDelay ::
        passEvents res (q :: r)) = _
      simp only [polledNames, List.filterMap_cons] at ih ⊢
      rw [ih]
      rfl

theorem countMinDelay_passEvents (res : PollerCfg → Bool) :
    ∀ g, (passEvents res g).countP
      (fun e => decide (e = SchedEvent.sleepMinDelay)) = g.length - 1 := by
  intro g
  induction g with
  | nil => rfl
  | cons p t ih =>
    cases t with
    | nil => rfl
    | cons q r =>
      show (SchedEvent.polled p.name (res p) :: SchedEvent.sleepMinDelay ::
        passEvents res (q :: r)).countP _ = _
      rw [List.countP_cons, List.countP_cons, ih]
      simp [List.length_cons]

theorem countInterval_passEvents (res : PollerCfg → Bool) :
    ∀ g, (passEvents res g).countP
      (fun e => decide (e = SchedEvent.sleepInterval)) = 0 := by
  intro g
  induction g with
  | nil => rfl
  | cons p t ih =>
    cases t with
    | nil => rfl
    | cons q r =>
      show (SchedEvent.polled p.name (res p) :: SchedEvent.sleepMinDelay ::
        passEvents res (q :: r)).countP _ = _
      rw [List.countP_cons, List.countP_cons, ih]
      simp

/-- Claim C9: `groupByATS` partitions the pollers by ATS tag preserving the
configured order (each tag's group is exactly the configured list filtered to
that tag, so every member carries the tag); and for each group one pass of
the worker loop polls every company of the group in configured order — an
error outcome never skips subsequent companies or changes the polled order —
sleeps `min_delay` exactly between consecutive companies (`|group| - 1`
times, never after the last), and ends the pass with the single
`polling_interval` sleep. -/
theorem c9_scheduler_grouping_and_pass (pollers : List PollerCfg) (ats : String)
    (res res' : PollerCfg → Bool) (group : List PollerCfg) :
    groupByATS pollers ats = pollers.filter (fun p => p.ats == ats) ∧
    (∀ p ∈ groupByATS pollers ats, p.ats = ats) ∧
    polledNames (passEvents res group) = group.map PollerCfg.name ∧
    polledNames (passEvents res group) = polledNames (passEvents res' group) ∧
    (passEvents res group).countP
      (fun e => decide (e = SchedEvent.sleepMinDelay)) = group.length - 1 ∧
    (passEvents res group).countP
      (fun e => decide (e = SchedEvent.sleepInterval)) = 0 ∧
    (atsPassTrace res group).getLast? = some SchedEvent.sleepInterval := by
  have hgrp : groupByATS pollers ats =
      pollers.filter (fun p => p.ats == ats) := by
    show (pollers.foldl _ (fun _ => [])) ats = _
    rw [groupByATS_foldl]
    rfl
  refine ⟨hgrp, ?_, polledNames_passEvents res group,
    (polledNames_passEvents res group).trans
      (polledNames_passEvents res' group).symm,
    countMinDelay_passEvents res group,
    countInterval_passEvents res group,
    List.getLast?_concat _⟩
  intro p hp
  rw [hgrp] at hp
  have := (List.mem_filter.mp hp).2
  exact beq_iff_eq.mp this

/-- Fixtures for the scheduler witness: three pollers over two ATS tags in
configured order, with the middle one on a different tag. -/
def schedDemoPollers : List PollerCfg :=
  [{ name := "acme", ats := "greenhouse" }, { name := "beta", ats := "lever" },
   { name := "gamma", ats := "greenhouse" }]

/-- Outcome map for the scheduler witness: the first greenhouse company
fails. -/
def schedDemoRes (p : PollerCfg) : Bool := !(p.name == "acme")

/-- Witness for C9: the greenhouse group is `[acme, gamma]` in configured
order; with `acme` failing, one pass still polls `acme` then `gamma`, sleeps
`min_delay` once (between them, not after `gamma`), and ends with the
interval sleep. -/
theorem c9_scheduler_witness :
    groupByATS schedDemoPollers "greenhouse" =
      [{ name := "acme", ats := "greenhouse" },
       { name := "gamma", ats := "greenhouse" }] ∧
    ({ name := "gamma", ats := "greenhouse" } : PollerCfg).ats = "greenhouse" ∧
    polledNames (passEvents schedDemoRes
      (groupByATS schedDemoPollers "greenhouse")) = ["acme", "gamma"] ∧
    (passEvents schedDemoRes
      (groupByATS schedDemoPollers "greenhouse")).countP
      (fun e => decide (e = SchedEvent.sleepMinDelay)) = 1 ∧
    (atsPassTrace schedDemoRes
      (groupByATS schedDemoPollers "greenhouse")).getLast? =
      some SchedEvent.sleepInterval := by
  have h := c9_scheduler_grouping_and_pass schedDemoPollers "greenhouse"
    schedDemoRes schedDemoRes (groupByATS schedDemoPollers "greenhouse")
  refine ⟨?_, ?_, ?_, ?_, h.2.2.2.2.2.2⟩
  · rw [h.1]
    decide
  · exact h.2.1 { name := "gamma", ats := "greenhouse" } (by decide)
  · rw [h.2.2.1]
    rw [h.1]
    decide
  · rw [h.2.2.2.2.1]
    rw [h.1]
    decide

end FirstIn
